import Mathlib

/-!
Verification of the mood-tracker data-aggregation core against its
natural-language specification.

The Python sources are embedded shallowly:

* `storage.py` — `parse_tags` (the tolerant tag-cell decoder inside
  `load_dataframe`) and `append_entry`.  The `json.dumps` encoding of a tag
  list is embedded as `encodeTags`; the fragment of `json.loads` that is
  reachable from tag cells (JSON lists of strings, with `\"` and `\\`
  escapes and ASCII whitespace) is embedded as `parseJsonStrList`.  JSON
  values outside that fragment (numbers, nested structures, unicode
  escapes) do not arise from rows the application writes and are treated
  as parse failures.
* `app.py` — `App._save_entry`, `App._filtered_df`,
  `TrendsPage.refresh_chart`'s summary line, and
  `HomePage._build_calendar` (through Python's
  `calendar.Calendar(firstweekday=0).monthdatescalendar`, embedded via
  the proleptic-Gregorian ordinal arithmetic of `datetime.date`).
* `charts.py` — `weekly_mood_bar`'s counting logic.

Timestamps are modelled at second precision as integers
`ordinal * 86400 + secondOfDay`, where `ordinal` is Python's
`date.toordinal()` day number (ordinal 1 = Monday, January 1 of year 1);
`pandas` `.dt.date` is then floor division by 86400, and
`date.weekday()` is `(ordinal + 6) % 7`.  Unparseable cells
(`NaT`/`NaN` from `errors="coerce"`) are modelled as `none`.
Mood values parsed by `pd.to_numeric` are modelled as integers for the
chart path (which applies `.astype(int)`) and as rationals for the
trends mean.  Floating-point rounding of the displayed mean is not
modelled; the mean itself is exact rational arithmetic.
-/

namespace MoodTracker

set_option maxRecDepth 4000

/-! ## Tag encoding and decoding (storage.py) -/

/-- Characters that `json` and Python `str.strip` treat as whitespace
(space, tab, newline, carriage return). -/
def isWsChar (c : Char) : Bool :=
  c = ' ' ∨ c = '\t' ∨ c = '\n' ∨ c = '\r'

/-- Skip leading JSON whitespace. -/
def skipWs : List Char → List Char
  | [] => []
  | c :: rest => if isWsChar c then skipWs rest else c :: rest

/-- Escape one character the way `json.dumps(..., ensure_ascii=False)`
does for characters of code point ≥ 0x20: only `"` and `\` are escaped. -/
def escChar (c : Char) : List Char :=
  if c = '"' ∨ c = '\\' then ['\\', c] else [c]

/-- Escape a whole string body. -/
def escStr (s : List Char) : List Char :=
  s.flatMap escChar

/-- One JSON string item as emitted by `json.dumps`. -/
def encodeItem (s : List Char) : List Char :=
  '"' :: escStr s ++ ['"']

/-- The comma-separated items of a nonempty JSON list, with the `", "`
separator `json.dumps` uses by default. -/
def encodeItems : List (List Char) → List Char
  | [] => []
  | [s] => encodeItem s
  | s :: rest => encodeItem s ++ ',' :: ' ' :: encodeItems rest

/-- Embedding of `json.dumps(tags, ensure_ascii=False)` for a list of
strings whose characters all have code point ≥ 0x20. -/
def encodeTags (tags : List String) : String :=
  match tags with
  | [] => "[]"
  | _ => ⟨'[' :: encodeItems (tags.map String.data) ++ [']']⟩

/-- Parse the body of a JSON string after the opening quote: ends at an
unescaped `"`, a backslash makes the following character literal.
Modelling boundary: real `json.loads` instead decodes the escapes
`\n`, `\t`, `\uXXXX`, … to the escaped character and rejects invalid
escapes, so on hand-crafted cells containing a backslash this parser
diverges from the program.  It agrees with `json.loads` exactly on the
strings `encodeItem` emits (where the only escapes are `\"` and `\\`,
which both treatments map to the literal character), and the theorems
below rely on it only there. -/
def parseQuoted : List Char → Option (List Char × List Char)
  | [] => none
  | c :: rest =>
    if c = '"' then some ([], rest)
    else if c = '\\' then
      match rest with
      | [] => none
      | c2 :: rest2 => (parseQuoted rest2).map (fun p => (c2 :: p.1, p.2))
    else (parseQuoted rest).map (fun p => (c :: p.1, p.2))

/-- Parse one or more comma-separated JSON string items up to the closing
`]`.  The input must start with the opening `"` of the first item; `fuel`
bounds the number of items. -/
def parseItems : Nat → List Char → Option (List (List Char) × List Char)
  | 0, _ => none
  | fuel + 1, cs =>
    match cs with
    | '"' :: rest =>
      match parseQuoted rest with
      | none => none
      | some (s, rest1) =>
        match skipWs rest1 with
        | ',' :: rest2 =>
          (parseItems fuel (skipWs rest2)).map (fun p => (s :: p.1, p.2))
        | ']' :: rest2 => some ([s], rest2)
        | _ => none
    | _ => none

/-- Embedding of the fragment of `json.loads` reachable from tag cells:
a JSON list of strings, possibly surrounded by whitespace.  Anything
else fails (and `parse_tags` then falls back to the legacy decoding).
Modelling boundary: this inherits `parseQuoted`'s simplified escape
treatment, and it fails on JSON values that are not lists of strings,
which Python would parse.  It agrees with `json.loads` on the image of
`encodeTags`, and it agrees on *failing* for every cell whose first
non-whitespace character cannot begin a JSON value (see `legacyCell`);
universally quantified theorems below range only over those two
domains. -/
def parseJsonStrList (s : String) : Option (List String) :=
  match skipWs s.data with
  | '[' :: rest =>
    match skipWs rest with
    | ']' :: rest2 => if (skipWs rest2).isEmpty then some [] else none
    | rest1 =>
      match parseItems (rest1.length + 1) rest1 with
      | some (l, rest2) =>
        if (skipWs rest2).isEmpty then some (l.map fun cs => ⟨cs⟩) else none
      | none => none
  | _ => none

/-- Python `str.split(";")`: split on every semicolon, keeping empty
pieces. -/
def splitSemi : List Char → List (List Char)
  | [] => [[]]
  | c :: rest =>
    if c = ';' then [] :: splitSemi rest
    else
      match splitSemi rest with
      | [] => [[c]]
      | piece :: pieces => (c :: piece) :: pieces

/-- Python `str.strip()` on the whitespace characters modelled here. -/
def stripChars (s : List Char) : List Char :=
  ((s.dropWhile isWsChar).reverse.dropWhile isWsChar).reverse

/-- Embedding of `parse_tags` from `storage.load_dataframe`: a missing
cell (`pd.isna`) or the empty string decodes to `[]`; otherwise try
`json.loads`; on failure split on `";"`, strip each piece, and keep the
nonempty ones. -/
def parse_tags (cell : Option String) : List String :=
  match cell with
  | none => []
  | some s =>
    if s = "" then []
    else
      match parseJsonStrList s with
      | some l => l
      | none =>
        ((splitSemi s.data).map stripChars).filterMap fun t =>
          if t.isEmpty then none else some ⟨t⟩

/-- A cell that is certainly not JSON: its first non-whitespace
character can begin no JSON value (`json.loads` accepts only values
starting with `[`, `{`, `"`, a digit, `-`, `t`rue, `f`alse, `n`ull, or
Python's lenient `N`aN / `I`nfinity).  On such cells — `"Sleep;Work"`
for example — both the program and this model necessarily take the
legacy semicolon path, which only splits and strips, so on this domain
the model is faithful to `parse_tags` as executed by Python. -/
def legacyCell (s : String) : Bool :=
  match skipWs s.data with
  | [] => false
  | c :: _ =>
    decide (c ≠ '[' ∧ c ≠ '{' ∧ c ≠ '"' ∧ c ≠ '-' ∧ c ≠ 't' ∧ c ≠ 'f' ∧
      c ≠ 'n' ∧ c ≠ 'N' ∧ c ≠ 'I' ∧ c.isDigit = false)

/-! ## Store rows and append (storage.py) -/

/-- One persisted CSV row as written by `append_entry`. -/
structure Row where
  ts : Int
  mood : Int
  note : String
  tags : String
deriving DecidableEq

/-- Python `str.strip()` lifted to `String`. -/
def pyStrip (s : String) : String :=
  ⟨stripChars s.data⟩

/-- Embedding of `storage.append_entry`: unconditionally appends one row
with the current timestamp, the mood as given, the stripped note, and the
JSON-encoded tags (`tags or []` maps a missing tag list to `[]`).  It
performs no validation of `mood`. -/
def append_entry (store : List Row) (now : Int) (mood : Int)
    (note : String) (tags : Option (List String)) : List Row :=
  store ++ [{ ts := now, mood := mood, note := pyStrip note,
              tags := encodeTags (tags.getD []) }]

/-- Result of `App._save_entry`: the store after the call, and whether
the validation error dialog was shown. -/
structure SaveOutcome where
  store : List Row
  error : Bool
deriving DecidableEq

/-- Embedding of `App._save_entry`: rejects `mood < 1 or mood > 5` with
an error and leaves the store unchanged, otherwise appends via
`storage.append_entry`. -/
def save_entry (store : List Row) (now : Int) (mood : Int)
    (note : String) (tags : List String) : SaveOutcome :=
  if mood < 1 ∨ 5 < mood then { store := store, error := true }
  else { store := append_entry store now mood note (some tags), error := false }

/-! ## Trends range filter and summary line (app.py) -/

/-- One row of the in-memory data frame as the Trends page sees it:
`timestamp` after `pd.to_datetime(errors="coerce")` (seconds, `none` for
`NaT`) and `mood` after `pd.to_numeric(errors="coerce")` (`none` for
`NaN`). -/
structure TrendRow where
  ts : Option Int
  mood : Option ℚ
deriving DecidableEq

/-- The three choices of the Trends range dropdown. -/
inductive RangeOpt
  | last7
  | last30
  | allTime
deriving DecidableEq

/-- Embedding of `App._filtered_df`: empty frame returned as is;
`All time` returns everything; otherwise keep rows with
`timestamp >= now - days` (a `NaT` timestamp compares false and is
dropped). -/
def filtered_df (now : Int) (rng : RangeOpt) (df : List TrendRow) : List TrendRow :=
  if df.isEmpty then df
  else
    match rng with
    | .allTime => df
    | .last7 => df.filter fun r =>
        match r.ts with
        | some t => decide (now - 7 * 86400 ≤ t)
        | none => false
    | .last30 => df.filter fun r =>
        match r.ts with
        | some t => decide (now - 30 * 86400 ≤ t)
        | none => false

/-- The summary line shown by `TrendsPage.refresh_chart`: either the
literal `"— avg: n/a"` or `"— avg: {mean} from {count} entries"`.
`mean = none` models the `NaN` that `pandas` produces when every mood in
a nonempty frame is `NaN`. -/
inductive StatsLine
  | noData
  | avgOf (mean : Option ℚ) (count : Nat)
deriving DecidableEq

/-- `pandas` `Series.mean()`: skips `NaN` values; the mean of an
all-`NaN` (here: empty) list is `NaN` (here: `none`). -/
def pandasMean (l : List ℚ) : Option ℚ :=
  if l.isEmpty then none else some (l.sum / l.length)

/-- Embedding of the summary computation in `TrendsPage.refresh_chart`:
`"n/a"` exactly when the (already range-filtered) frame is empty,
otherwise the `pandas` mean of the mood column together with `len(df)`. -/
def refresh_stats (df : List TrendRow) : StatsLine :=
  if df.isEmpty then .noData
  else .avgOf (pandasMean (df.filterMap TrendRow.mood)) df.length

/-- Number of entries with a parseable mood inside `[1, 5]` — the count
the specification's `summary` contract prescribes.  Stated from the
spec's words, for comparison with `refresh_stats`. -/
def specSummaryCount (df : List TrendRow) : Nat :=
  (df.filter fun r =>
    match r.mood with
    | some q => decide (1 ≤ q ∧ q ≤ 5)
    | none => false).length

/-! ## Weekly mood bar (charts.py) -/

/-- One row of the data frame as `charts.weekly_mood_bar` sees it.
`mood` is an integer option: every mood the application itself writes is
an integer, and the chart path applies `.astype(int)` anyway. -/
structure ChartRow where
  ts : Option Int
  mood : Option Int
deriving DecidableEq

/-- The three mood bins of the weekly chart. -/
inductive Bin
  | happy
  | neutral
  | sad
deriving DecidableEq

/-- Embedding of `mood_bin` inside `weekly_mood_bar`: `m <= 2` is Sad,
`m == 3` is Neutral, everything larger is Happy. -/
def mood_bin (m : Int) : Bin :=
  if m ≤ 2 then .sad else if m = 3 then .neutral else .happy

/-- `pandas` `.dt.date` on a second-precision timestamp: the containing
day ordinal (floor division, since `Int` division is Euclidean and the
divisor is positive). -/
def tsDate (t : Int) : Int :=
  t / 86400

/-- Python `date.weekday()` on a day ordinal: Monday is 0
(ordinal 1, January 1 of year 1, is a Monday). -/
def pyWeekday (day : Int) : Int :=
  (day + 6) % 7

/-- `today - timedelta(days=today.weekday())`: the Monday of the current
week. -/
def weekStart (today : Int) : Int :=
  today - pyWeekday today

/-- The `dropna(subset=["timestamp"])` step followed by the window filter
`Timestamp(start) <= ts <= Timestamp(end) + Timedelta(days=1)` of
`weekly_mood_bar` (with `end = start + 6`), keeping the mood column. -/
def windowRows (start : Int) (df : List ChartRow) : List (Int × Option Int) :=
  (df.filterMap fun r => r.ts.map fun t => (t, r.mood)).filter fun p =>
    decide (start * 86400 ≤ p.1 ∧ p.1 ≤ (start + 6) * 86400 + 86400)

/-- The `.fillna(3).astype(int)` step paired with each row's calendar
date: a missing mood is silently replaced by 3. -/
def binnedRows (start : Int) (df : List ChartRow) : List (Int × Int) :=
  (windowRows start df).map fun p => (tsDate p.1, p.2.getD 3)

/-- `(day_df["bin"] == b).sum()` for one week day and one bin. -/
def dayBinCount (rows : List (Int × Int)) (d : Int) (b : Bin) : Nat :=
  rows.countP fun p => decide (p.1 = d ∧ mood_bin p.2 = b)

/-- Embedding of the counting logic of `charts.weekly_mood_bar`: for the
Monday–Sunday week containing `today`, the per-day `(Happy, Neutral,
Sad)` counts, all zero for an empty frame. -/
def weekly_mood_bar (today : Int) (df : List ChartRow) : List (Nat × Nat × Nat) :=
  let start := weekStart today
  let wk := (List.range 7).map fun i : Nat => start + (i : Int)
  if df.isEmpty then wk.map fun _ => (0, 0, 0)
  else wk.map fun d =>
    (dayBinCount (binnedRows start df) d .happy,
     dayBinCount (binnedRows start df) d .neutral,
     dayBinCount (binnedRows start df) d .sad)

/-- Number of entries of the frame whose timestamp parses and falls on
the given day ordinal. -/
def entriesOnDay (df : List ChartRow) (day : Int) : Nat :=
  df.countP fun r =>
    match r.ts with
    | some t => decide (tsDate t = day)
    | none => false

/-- Number of entries on the given day whose mood also parses — the
"classifiable" entries of the specification, stated from the spec's
words for comparison with the code's counts. -/
def specClassifiableOnDay (df : List ChartRow) (day : Int) : Nat :=
  df.countP fun r =>
    match r.ts, r.mood with
    | some t, some _ => decide (tsDate t = day)
    | _, _ => false

/-- Does the row's (parsed) timestamp fall on one of the seven days of
the week of `today`? -/
def dateInWeek (today : Int) (r : ChartRow) : Bool :=
  match r.ts with
  | some t => decide (weekStart today ≤ tsDate t ∧ tsDate t ≤ weekStart today + 6)
  | none => false

/-! ## Calendar grid (app.py `HomePage._build_calendar`, via Python's
`calendar.Calendar(firstweekday=0).monthdatescalendar` and
`datetime.date`) -/

/-- Python `calendar.isleap`. -/
def isLeap (y : Int) : Bool :=
  y % 4 = 0 ∧ (y % 100 ≠ 0 ∨ y % 400 = 0)

/-- Python `datetime._days_in_month`. -/
def days_in_month (y m : Int) : Int :=
  if m = 2 then (if isLeap y then 29 else 28)
  else if m = 4 ∨ m = 6 ∨ m = 9 ∨ m = 11 then 30
  else 31

/-- Python `datetime._days_before_month` (cumulative day counts before
each month, with the leap-day adjustment for months after February). -/
def days_before_month (y m : Int) : Int :=
  (if m = 1 then 0 else if m = 2 then 31 else if m = 3 then 59
   else if m = 4 then 90 else if m = 5 then 120 else if m = 6 then 151
   else if m = 7 then 181 else if m = 8 then 212 else if m = 9 then 243
   else if m = 10 then 273 else if m = 11 then 304 else 334)
  + (if 2 < m ∧ isLeap y then 1 else 0)

/-- Python `datetime.date.toordinal` (`_ymd2ord`): day 1 is
January 1 of year 1, a Monday.  Python's `//` is floor division, which
for the positive divisors here coincides with `Int`'s Euclidean `/`. -/
def toordinal (y m d : Int) : Int :=
  365 * (y - 1) + (y - 1) / 4 - (y - 1) / 100 + (y - 1) / 400
    + days_before_month y m + d

/-- A calendar date as Python's `datetime.date` carries it. -/
structure Date where
  y : Int
  m : Int
  d : Int
deriving DecidableEq

/-- A structurally valid date. -/
def validDate (dt : Date) : Prop :=
  1 ≤ dt.m ∧ dt.m ≤ 12 ∧ 1 ≤ dt.d ∧ dt.d ≤ days_in_month dt.y dt.m

/-- The month before (year, month). -/
def prevMonth (y m : Int) : Int × Int :=
  if m = 1 then (y - 1, 12) else (y, m - 1)

/-- The month after (year, month). -/
def nextMonth (y m : Int) : Int × Int :=
  if m = 12 then (y + 1, 1) else (y, m + 1)

/-- `date + timedelta(days=1)` in structural form. -/
def nextDate (dt : Date) : Date :=
  if dt.d < days_in_month dt.y dt.m then ⟨dt.y, dt.m, dt.d + 1⟩
  else ⟨(nextMonth dt.y dt.m).1, (nextMonth dt.y dt.m).2, 1⟩

/-- Python `date.weekday()`: Monday is 0. -/
def dateWeekday (dt : Date) : Int :=
  (toordinal dt.y dt.m dt.d + 6) % 7

/-- The first cell of `monthdatescalendar(y, m)`: the Monday on or
before the first of the month (a date of the previous month when the
first is not itself a Monday). -/
def gridStart (y m : Int) : Date :=
  let w := dateWeekday ⟨y, m, 1⟩
  if w = 0 then ⟨y, m, 1⟩
  else ⟨(prevMonth y m).1, (prevMonth y m).2,
        days_in_month (prevMonth y m).1 (prevMonth y m).2 - w + 1⟩

/-- Total number of cells of `monthdatescalendar(y, m)`: the month's
days plus the leading pad back to Monday plus the trailing pad up to
Sunday — always a multiple of 7. -/
def gridLen (y m : Int) : Nat :=
  let w := (dateWeekday ⟨y, m, 1⟩).toNat
  let n := (days_in_month y m).toNat
  w + n + (7 - (w + n) % 7) % 7

/-- Embedding of
`calendar.Calendar(firstweekday=0).monthdatescalendar(y, m)`, flattened:
the consecutive dates from the Monday on or before the 1st through the
Sunday on or after the month's last day.  (`_build_calendar` lays these
out seven per row.) -/
def monthGrid (y m : Int) : List Date :=
  (List.range (gridLen y m)).map fun i => nextDate^[i] (gridStart y m)

/-- The grid as `_build_calendar` renders it: each date together with
its `in_month` flag, computed as `day.month == self.cal_month`. -/
def gridCells (y m : Int) : List (Date × Bool) :=
  (monthGrid y m).map fun dt => (dt, decide (dt.m = m))

/-- The six boundary entries of the range-filter test: timestamps at
exactly `now`, `now − 6` days, `now − 7` days, `now − 29` days,
`now − 30` days, and `now − 31` days. -/
def sixBoundaryRows (now : Int) : List TrendRow :=
  [⟨some now, none⟩, ⟨some (now - 6 * 86400), none⟩,
   ⟨some (now - 7 * 86400), none⟩, ⟨some (now - 29 * 86400), none⟩,
   ⟨some (now - 30 * 86400), none⟩, ⟨some (now - 31 * 86400), none⟩]

/-! ## Claim theorems -/

/-- C1: the claim states that an entry with a missing or unparseable
mood contributes to none of the three weekly bins.  The code instead
applies `.fillna(3)` before binning, so such an entry is counted as
Neutral: with `today` the Monday of ordinal 1, a frame holding one
entry on that Monday with moods 4, 5, 3, 1, 2 and one unparseable mood
produces Monday counts (Happy, Neutral, Sad) = (2, 2, 2) — the
unparseable entry lands in Neutral, where the claim (and the parseable
moods alone) would give (2, 1, 2).  The mood-value classification
itself (4, 5 → Happy; 3 → Neutral; 1, 2 → Sad) is as claimed. -/
theorem C1_unparseable_mood_defaulted :
    weekly_mood_bar 1
      [⟨some 86400, some 4⟩, ⟨some 86400, some 5⟩, ⟨some 86400, some 3⟩,
       ⟨some 86400, some 1⟩, ⟨some 86400, some 2⟩, ⟨some 86400, none⟩] =
      [(2, 2, 2), (0, 0, 0), (0, 0, 0), (0, 0, 0), (0, 0, 0), (0, 0, 0), (0, 0, 0)] ∧
    weekly_mood_bar 1 [⟨some 86400, none⟩] =
      [(0, 1, 0), (0, 0, 0), (0, 0, 0), (0, 0, 0), (0, 0, 0), (0, 0, 0), (0, 0, 0)] := by
  decide

/-- C2, counterexample: the claim says the `Last7Days` window excludes
the entry timestamped exactly `now − 7` days.  The code keeps rows with
`timestamp >= now - timedelta(days=7)`, so that entry is included
(shown here at `now = 0`). -/
theorem C2_boundary_included :
    (⟨some (-(7 * 86400)), none⟩ : TrendRow) ∈
      filtered_df 0 .last7 (sixBoundaryRows 0) := by
  decide

/-- C2, amended: both windows are inclusive at their boundary.  Of the
six boundary entries, `Last7Days` keeps those at `now`, `now − 6` days
and `now − 7` days (exactly `now − 7` days included); `Last30Days`
keeps everything up to and including `now − 30` days, excluding only
`now − 31` days; `AllTime` keeps all six. -/
theorem C2_range_filter_boundaries (now : Int) :
    filtered_df now .last7 (sixBoundaryRows now) =
      [⟨some now, none⟩, ⟨some (now - 6 * 86400), none⟩,
       ⟨some (now - 7 * 86400), none⟩] ∧
    filtered_df now .last30 (sixBoundaryRows now) =
      [⟨some now, none⟩, ⟨some (now - 6 * 86400), none⟩,
       ⟨some (now - 7 * 86400), none⟩, ⟨some (now - 29 * 86400), none⟩,
       ⟨some (now - 30 * 86400), none⟩] ∧
    filtered_df now .allTime (sixBoundaryRows now) = sixBoundaryRows now := by
  refine ⟨?_, ?_, ?_⟩ <;>
    · simp only [filtered_df, sixBoundaryRows, List.filter_cons, List.filter_nil,
        List.isEmpty_cons, if_false, Bool.false_eq_true]
      try norm_num
      try split_ifs <;> first | rfl | omega

/-- C3, counterexample: the claim says `count` is the number of entries
with a parseable, in-range mood, and that a collection whose such count
is 0 yields a "no data" summary.  A one-entry frame with mood 7 has
spec-count 0, yet the code reports `count = len(df) = 1` and the numeric
mean 7. -/
theorem C3_out_of_range_counted :
    refresh_stats [⟨some 0, some 7⟩] = .avgOf (some 7) 1 ∧
    specSummaryCount [⟨some 0, some 7⟩] = 0 ∧
    refresh_stats [⟨some 0, some 7⟩] ≠ .noData := by
  refine ⟨?_, by decide, ?_⟩ <;> simp [refresh_stats, pandasMean]

/-- C3, amended: the summary's count is the total number of entries in
the (filtered) collection, parseable or not; the mean is the arithmetic
mean over exactly the entries with a parseable mood, with no `[1, 5]`
restriction (`none` — pandas `NaN` — when no mood parses); and the
explicit "n/a" result appears exactly when the collection is empty. -/
theorem C3_summary_behaviour (df : List TrendRow) :
    (refresh_stats df = .noData ↔ df = []) ∧
    ∀ m c, refresh_stats df = .avgOf m c →
      c = df.length ∧
      (m = none ↔ df.filterMap TrendRow.mood = []) ∧
      ∀ q, m = some q →
        q * (df.filterMap TrendRow.mood).length = (df.filterMap TrendRow.mood).sum := by
  constructor
  · constructor
    · intro h
      by_contra hne
      simp [refresh_stats, hne] at h
    · intro h
      subst h
      simp [refresh_stats]
  · intro m c h
    have hne : ¬ df.isEmpty := by
      intro he
      simp [refresh_stats, he] at h
    simp only [refresh_stats, if_neg hne] at h
    obtain ⟨hm, hc⟩ := StatsLine.avgOf.inj h.symm
    refine ⟨hc, ?_, ?_⟩
    · rw [hm]
      unfold pandasMean
      constructor
      · intro h2
        by_contra h3
        simp [h3] at h2
      · intro h2
        simp [h2]
    · intro q hq
      rw [hm] at hq
      unfold pandasMean at hq
      by_cases hl : (df.filterMap TrendRow.mood).isEmpty
      · simp [hl] at hq
      · simp only [if_neg hl, Option.some.injEq] at hq
        have hlen : ((df.filterMap TrendRow.mood).length : ℚ) ≠ 0 := by
          simp [List.isEmpty_iff] at hl
          simp [hl, List.length_eq_zero]
        rw [← hq]
        field_simp

/-- C3, witness for the amended theorem, at the one-entry frame with
mood 2. -/
theorem C3_summary_behaviour_witness :
    (1 : Nat) = ([⟨some 0, some 2⟩] : List TrendRow).length ∧
    (2 : ℚ) * (([⟨some 0, some 2⟩] : List TrendRow).filterMap TrendRow.mood).length =
      (([⟨some 0, some 2⟩] : List TrendRow).filterMap TrendRow.mood).sum := by
  have h := (C3_summary_behaviour [⟨some 0, some 2⟩]).2 (some 2) 1
    (by simp [refresh_stats, pandasMean])
  exact ⟨h.1, h.2.2 2 rfl⟩

/-- C4, counterexample: the claim says the store-layer append validates
`mood ∈ [1,5]` and persists no row for an out-of-range mood.  The code
has no such check: appending mood 0 to an empty store persists one row
with mood 0. -/
theorem C4_store_accepts_invalid :
    append_entry [] 0 0 "" none =
      [{ ts := 0, mood := 0, note := "", tags := "[]" }] ∧
    append_entry [] 0 0 "" none ≠ [] := by
  decide

/-- C4, amended: the store-layer append performs no mood validation at
all — for every mood value, in range or not, it persists exactly one new
row carrying that mood verbatim; the `[1,5]` check lives only in the
caller (`App._save_entry`). -/
theorem C4_store_append_unconditional (store : List Row) (now mood : Int)
    (note : String) (tags : Option (List String)) :
    (append_entry store now mood note tags).length = store.length + 1 ∧
    (append_entry store now mood note tags).getLast? =
      some { ts := now, mood := mood, note := pyStrip note,
             tags := encodeTags (tags.getD []) } := by
  constructor
  · simp [append_entry]
  · simp [append_entry]

/-- C5: `save_new_entry` (`App._save_entry`) with mood 0 or mood 6
reports a validation error and leaves the stored collection unchanged,
while mood 1 and mood 5 succeed and append the entry. -/
theorem C5_save_validation_boundary (store : List Row) (now : Int)
    (note : String) (tags : List String) :
    (save_entry store now 0 note tags).error = true ∧
    (save_entry store now 0 note tags).store = store ∧
    (save_entry store now 6 note tags).error = true ∧
    (save_entry store now 6 note tags).store = store ∧
    (save_entry store now 1 note tags).error = false ∧
    (save_entry store now 1 note tags).store =
      store ++ [{ ts := now, mood := 1, note := pyStrip note,
                  tags := encodeTags tags }] ∧
    (save_entry store now 5 note tags).error = false ∧
    (save_entry store now 5 note tags).store =
      store ++ [{ ts := now, mood := 5, note := pyStrip note,
                  tags := encodeTags tags }] := by
  refine ⟨?_, ?_, ?_, ?_, ?_, ?_, ?_, ?_⟩ <;>
    norm_num [save_entry, append_entry]

/-! ### Counting lemmas for the weekly chart -/

/-- The three bins partition the binned rows of one day: the per-day bin
counts sum to the number of binned rows carrying that date. -/
theorem dayBinCount_sum (rows : List (Int × Int)) (d : Int) :
    dayBinCount rows d .happy + dayBinCount rows d .neutral + dayBinCount rows d .sad =
      rows.countP fun p => decide (p.1 = d) := by
  induction rows with
  | nil => simp [dayBinCount]
  | cons p rows ih =>
    by_cases hd : p.1 = d
    · cases hb : mood_bin p.2 <;>
        simp [dayBinCount, List.countP_cons, hd, hb] at ih ⊢ <;> omega
    · simp [dayBinCount, List.countP_cons, hd] at ih ⊢
      exact ih

/-- For a date inside the displayed week, the binned rows carrying that
date are exactly the frame's entries with a parseable timestamp on that
date: the window filter removes nothing on the week's own days. -/
theorem binned_countP_day (start d : Int) (h1 : start ≤ d) (h2 : d ≤ start + 6)
    (df : List ChartRow) :
    ((binnedRows start df).countP fun p => decide (p.1 = d)) = entriesOnDay df d := by
  induction df with
  | nil => simp [binnedRows, windowRows, entriesOnDay]
  | cons r df ih =>
    cases hts : r.ts with
    | none =>
      simpa [binnedRows, windowRows, entriesOnDay, hts, List.filterMap_cons]
        using ih
    | some t =>
      by_cases hw : start * 86400 ≤ t ∧ t ≤ (start + 6) * 86400 + 86400
      · by_cases hdd : tsDate t = d
        · simp [binnedRows, windowRows, entriesOnDay, hts, List.filterMap_cons,
            List.filter_cons, hw, List.countP_cons, hdd] at ih ⊢
          omega
        · simp [binnedRows, windowRows, entriesOnDay, hts, List.filterMap_cons,
            List.filter_cons, hw, List.countP_cons, hdd] at ih ⊢
          exact ih
      · have hdd : ¬ tsDate t = d := by
          simp only [tsDate]
          omega
        simp [binnedRows, windowRows, entriesOnDay, hts, List.filterMap_cons,
          List.filter_cons, hw, List.countP_cons, hdd] at ih ⊢
        exact ih

/-- Rows whose date lies outside the displayed week never change a
per-day bin count of that week. -/
theorem dayBinCount_week_filter (today d : Int) (b : Bin)
    (h1 : weekStart today ≤ d) (h2 : d ≤ weekStart today + 6) (df : List ChartRow) :
    dayBinCount (binnedRows (weekStart today) (df.filter (dateInWeek today))) d b =
      dayBinCount (binnedRows (weekStart today) df) d b := by
  induction df with
  | nil => rfl
  | cons r df ih =>
    cases hts : r.ts with
    | none =>
      simpa [dateInWeek, binnedRows, windowRows, hts, List.filter_cons,
        List.filterMap_cons] using ih
    | some t =>
      by_cases hin : weekStart today ≤ tsDate t ∧ tsDate t ≤ weekStart today + 6
      · have hstep : (dateInWeek today r) = true := by
          simp [dateInWeek, hts, hin]
        by_cases hw : weekStart today * 86400 ≤ t ∧
            t ≤ (weekStart today + 6) * 86400 + 86400
        · simp [binnedRows, windowRows, List.filterMap_cons, List.filter_cons,
            hts, hstep, hw, dayBinCount, List.countP_cons] at ih ⊢
          omega
        · simp [binnedRows, windowRows, List.filterMap_cons, List.filter_cons,
            hts, hstep, hw, dayBinCount] at ih ⊢
          exact ih
      · have hstep : (dateInWeek today r) = false := by
          simp [dateInWeek, hts, hin]
        by_cases hw : weekStart today * 86400 ≤ t ∧
            t ≤ (weekStart today + 6) * 86400 + 86400
        · have hdd : ¬ tsDate t = d := by
            simp only [tsDate] at hin ⊢
            omega
          simp [binnedRows, windowRows, List.filterMap_cons, List.filter_cons,
            hts, hstep, hw, dayBinCount, List.countP_cons, hdd] at ih ⊢
          exact ih
        · simp [binnedRows, windowRows, List.filterMap_cons, List.filter_cons,
            hts, hstep, hw, dayBinCount] at ih ⊢
          exact ih

/-- C6, counterexample: the claim says each day's three counts sum to
the number of classifiable entries on that day, where — by the spec's
own classification rule — an entry with an unparseable mood is not
classifiable.  One unparseable-mood entry on the week's Monday gives a
Monday slot summing to 1 while the classifiable count is 0, because
`.fillna(3)` classifies it anyway. -/
theorem C6_sum_includes_unparseable :
    ((weekly_mood_bar 1 [⟨some 86400, none⟩]).getD 0 (0, 0, 0)).1
      + ((weekly_mood_bar 1 [⟨some 86400, none⟩]).getD 0 (0, 0, 0)).2.1
      + ((weekly_mood_bar 1 [⟨some 86400, none⟩]).getD 0 (0, 0, 0)).2.2 = 1 ∧
    specClassifiableOnDay [⟨some 86400, none⟩] 1 = 0 := by
  decide

/-- C6, amended: the weekly bucket always holds exactly 7 day-slots of
3 natural-number counts; on an empty collection all counts are zero; and
each day's three counts sum to the number of entries with a parseable
timestamp on that day — entries with unparseable moods are defaulted to
Neutral and included in that sum, rather than excluded as the spec's
classifiability notion would have it. -/
theorem C6_week_bucket_shape (today : Int) (df : List ChartRow) (j : Nat)
    (hj : j < 7) :
    (weekly_mood_bar today df).length = 7 ∧
    weekly_mood_bar today [] = List.replicate 7 (0, 0, 0) ∧
    ((weekly_mood_bar today df).getD j (0, 0, 0)).1
      + ((weekly_mood_bar today df).getD j (0, 0, 0)).2.1
      + ((weekly_mood_bar today df).getD j (0, 0, 0)).2.2
      = entriesOnDay df (weekStart today + (j : Int)) := by
  refine ⟨?_, ?_, ?_⟩
  · by_cases hdf : df.isEmpty <;> simp [weekly_mood_bar, hdf]
  · rfl
  · cases df with
    | nil =>
      interval_cases j <;> rfl
    | cons r rest =>
      have hne : (r :: rest).isEmpty = false := rfl
      interval_cases j <;>
        · simp only [weekly_mood_bar, hne, Bool.false_eq_true, if_false,
            List.map_map]
          have hr7 : List.range 7 = [0, 1, 2, 3, 4, 5, 6] := rfl
          simp only [hr7, List.map_cons, List.map_nil, Function.comp,
            List.getD_cons_zero, List.getD_cons_succ]
          rw [dayBinCount_sum]
          exact binned_countP_day _ _ (by omega) (by omega) _

/-- C6, witness for the amended theorem at a one-entry frame on the
Monday of the week of day ordinal 1. -/
theorem C6_week_bucket_shape_witness :
    (weekly_mood_bar 1 [⟨some 86400, some 4⟩]).length = 7 ∧
    weekly_mood_bar 1 [] = List.replicate 7 (0, 0, 0) ∧
    ((weekly_mood_bar 1 [⟨some 86400, some 4⟩]).getD 0 (0, 0, 0)).1
      + ((weekly_mood_bar 1 [⟨some 86400, some 4⟩]).getD 0 (0, 0, 0)).2.1
      + ((weekly_mood_bar 1 [⟨some 86400, some 4⟩]).getD 0 (0, 0, 0)).2.2
      = entriesOnDay [⟨some 86400, some 4⟩] (weekStart 1 + ((0 : Nat) : Int)) :=
  C6_week_bucket_shape 1 [⟨some 86400, some 4⟩] 0 (by decide)

/-- C10: the weekly window filter admits timestamps up to one full day
past `pd.Timestamp(end)` (the Sunday's midnight), but such overshoot
entries contribute to no day-slot: the counts only ever see entries
whose calendar date is one of the week's seven dates.  Concretely, the
whole chart is unchanged by discarding every entry dated outside the
week, the overshoot instant (next Monday 00:00:00) does pass the window
filter, and a frame holding only that overshoot entry produces all-zero
counts. -/
theorem C10_overshoot_never_counted (today : Int) (df : List ChartRow) :
    weekly_mood_bar today df = weekly_mood_bar today (df.filter (dateInWeek today)) ∧
    weekStart today * 86400 ≤ (weekStart today + 7) * 86400 ∧
    (weekStart today + 7) * 86400 ≤ (weekStart today + 6) * 86400 + 86400 ∧
    weekly_mood_bar today [⟨some ((weekStart today + 7) * 86400), some 5⟩] =
      List.replicate 7 (0, 0, 0) := by
  refine ⟨?_, by omega, by omega, ?_⟩
  · cases df with
    | nil => rfl
    | cons r rest =>
      have hne : (r :: rest).isEmpty = false := rfl
      cases hfl : (r :: rest).filter (dateInWeek today) with
      | nil =>
        simp only [weekly_mood_bar, hne, Bool.false_eq_true, if_false,
          List.isEmpty_nil, if_true, List.map_map]
        apply List.map_congr_left
        intro i hi
        have hi7 : i < 7 := List.mem_range.mp hi
        have hh := dayBinCount_week_filter today (weekStart today + (i : Int))
          Bin.happy (by omega) (by omega) (r :: rest)
        have hn := dayBinCount_week_filter today (weekStart today + (i : Int))
          Bin.neutral (by omega) (by omega) (r :: rest)
        have hs := dayBinCount_week_filter today (weekStart today + (i : Int))
          Bin.sad (by omega) (by omega) (r :: rest)
        rw [hfl] at hh hn hs
        simp only [Function.comp]
        rw [← hh, ← hn, ← hs]
        rfl
      | cons q qrest =>
        have hfne : (q :: qrest).isEmpty = false := rfl
        simp only [weekly_mood_bar, hne, hfne, Bool.false_eq_true, if_false,
          List.map_map]
        apply List.map_congr_left
        intro i hi
        have hi7 : i < 7 := List.mem_range.mp hi
        have hh := dayBinCount_week_filter today (weekStart today + (i : Int))
          Bin.happy (by omega) (by omega) (r :: rest)
        have hn := dayBinCount_week_filter today (weekStart today + (i : Int))
          Bin.neutral (by omega) (by omega) (r :: rest)
        have hs := dayBinCount_week_filter today (weekStart today + (i : Int))
          Bin.sad (by omega) (by omega) (r :: rest)
        rw [hfl] at hh hn hs
        simp only [Function.comp]
        rw [← hh, ← hn, ← hs]
  · have hbr : binnedRows (weekStart today)
        [⟨some ((weekStart today + 7) * 86400), some 5⟩] =
        [(weekStart today + 7, 5)] := by
      have hcond : weekStart today * 86400 ≤ (weekStart today + 7) * 86400 ∧
          (weekStart today + 7) * 86400 ≤ (weekStart today + 6) * 86400 + 86400 := by
        omega
      simp [binnedRows, windowRows, tsDate, hcond, List.filter_cons]
    have hne : ([⟨some ((weekStart today + 7) * 86400), some 5⟩] :
        List ChartRow).isEmpty = false := rfl
    simp only [weekly_mood_bar, hne, Bool.false_eq_true, if_false, hbr,
      List.map_map]
    have hrep : (List.replicate 7 ((0 : Nat), (0 : Nat), (0 : Nat))) =
        (List.range 7).map ((fun _ => ((0 : Nat), (0 : Nat), (0 : Nat))) ∘
          fun i : Nat => weekStart today + (i : Int)) := by
      rfl
    rw [hrep]
    apply List.map_congr_left
    intro i hi
    have hi7 : i < 7 := List.mem_range.mp hi
    simp only [Function.comp, dayBinCount, List.countP_cons, List.countP_nil,
      decide_eq_true_eq]
    have hd : ¬ (weekStart today + 7 = weekStart today + (i : Int)) := by omega
    simp [hd]

/-! ### Round-trip lemmas for the tag encoding -/

/-- Skipping whitespace does nothing when the head is not whitespace. -/
theorem skipWs_cons_not (c : Char) (l : List Char) (h : isWsChar c = false) :
    skipWs (c :: l) = c :: l := by
  simp [skipWs, h]

/-- Skipping whitespace drops a whitespace head. -/
theorem skipWs_cons_ws (c : Char) (l : List Char) (h : isWsChar c = true) :
    skipWs (c :: l) = skipWs l := by
  simp [skipWs, h]

/-- The string-body parser inverts the escaper: parsing the escaped body
followed by a closing quote yields the body and the remaining input. -/
theorem parseQuoted_escStr (s rest : List Char) :
    parseQuoted (escStr s ++ '"' :: rest) = some (s, rest) := by
  induction s with
  | nil =>
    rw [show escStr [] ++ '"' :: rest = '"' :: rest from rfl,
      parseQuoted.eq_def]
    simp
  | cons c s ih =>
    by_cases hc : c = '"' ∨ c = '\\'
    · have h1 : escStr (c :: s) ++ '"' :: rest =
          '\\' :: c :: (escStr s ++ '"' :: rest) := by
        simp [escStr, escChar, hc, List.flatMap_cons]
      rw [h1, parseQuoted.eq_def]
      simp [ih]
    · push_neg at hc
      have h1 : escStr (c :: s) ++ '"' :: rest =
          c :: (escStr s ++ '"' :: rest) := by
        simp [escStr, escChar, hc.1, hc.2, List.flatMap_cons]
      rw [h1, parseQuoted.eq_def]
      simp [hc.1, hc.2, ih]

/-- A nonempty encoded item list always starts with a quote. -/
theorem encodeItems_cons_eq (s : List Char) (l : List (List Char)) :
    ∃ t, encodeItems (s :: l) = '"' :: t := by
  cases l <;> exact ⟨_, rfl⟩

/-- The encoded form of `k + 1` items is at least `k + 1` characters
long. -/
theorem encodeItems_length (l : List (List Char)) (s : List Char) :
    l.length + 1 ≤ (encodeItems (s :: l)).length := by
  induction l generalizing s with
  | nil => simp [encodeItems, encodeItem]
  | cons s2 l ih =>
    have h2 := ih s2
    simp only [encodeItems, encodeItem, List.length_append, List.length_cons] at h2 ⊢
    omega

/-- The item parser inverts the item encoder, given fuel exceeding the
number of remaining items. -/
theorem parseItems_encode (l : List (List Char)) (s : List Char)
    (fuel : Nat) (rest : List Char) (hf : l.length < fuel) :
    parseItems fuel (encodeItems (s :: l) ++ ']' :: rest) = some (s :: l, rest) := by
  induction l generalizing s fuel with
  | nil =>
    obtain ⟨f, rfl⟩ : ∃ f, fuel = f + 1 := ⟨fuel - 1, by omega⟩
    have hq : encodeItems [s] ++ ']' :: rest =
        '"' :: (escStr s ++ '"' :: ']' :: rest) := by
      simp [encodeItems, encodeItem]
    rw [hq, parseItems.eq_def]
    simp [parseQuoted_escStr, skipWs_cons_not, isWsChar]
  | cons s2 l ih =>
    obtain ⟨f, rfl⟩ : ∃ f, fuel = f + 1 := ⟨fuel - 1, by omega⟩
    obtain ⟨t2, ht2⟩ := encodeItems_cons_eq s2 l
    have hq : encodeItems (s :: s2 :: l) ++ ']' :: rest =
        '"' :: (escStr s ++ '"' :: ',' :: ' ' ::
          (encodeItems (s2 :: l) ++ ']' :: rest)) := by
      simp [encodeItems, encodeItem]
    have hrec : parseItems f ('"' :: (t2 ++ ']' :: rest)) = some (s2 :: l, rest) := by
      have hl : l.length < f := by
        simp only [List.length_cons] at hf
        omega
      have h0 := ih s2 f hl
      rw [ht2] at h0
      simpa using h0
    rw [hq, parseItems.eq_def]
    have hskipmid : skipWs (encodeItems (s2 :: l) ++ ']' :: rest) =
        '"' :: (t2 ++ ']' :: rest) := by
      rw [ht2]
      simpa using skipWs_cons_not '"' (t2 ++ ']' :: rest) (by decide)
    simp [parseQuoted_escStr, skipWs_cons_not, skipWs_cons_ws, isWsChar,
      hskipmid, hrec]

/-- Decoding inverts the structured encoder exactly: the decoder
returns the encoded tag list verbatim.  (On the encoder's image the
model parser and `json.loads` agree, so this is the program's
behaviour on every row the application itself writes.) -/
theorem parse_tags_encodeTags (tags : List String) :
    parse_tags (some (encodeTags tags)) = tags := by
  cases tags with
  | nil => decide
  | cons t ts =>
    obtain ⟨t2, ht2⟩ := encodeItems_cons_eq t.data (ts.map String.data)
    have hdata : (encodeTags (t :: ts)).data =
        '[' :: (encodeItems (t.data :: ts.map String.data) ++ [']']) := by
      simp [encodeTags]
    have hne : encodeTags (t :: ts) ≠ "" := by
      intro h
      have h2 := congrArg String.data h
      rw [hdata] at h2
      simp at h2
    have hskip1 : skipWs ((encodeTags (t :: ts)).data) =
        '[' :: (encodeItems (t.data :: ts.map String.data) ++ [']']) := by
      rw [hdata]
      exact skipWs_cons_not _ _ (by decide)
    have hskip2 : skipWs (encodeItems (t.data :: ts.map String.data) ++ [']']) =
        '"' :: (t2 ++ [']']) := by
      rw [ht2]
      simpa using skipWs_cons_not '"' (t2 ++ [']']) (by decide)
    have hpi : parseItems (t2.length + 3)
        ('"' :: (t2 ++ [']'])) = some (t.data :: ts.map String.data, []) := by
      have hlen : (ts.map String.data).length < t2.length + 3 := by
        have h1 := encodeItems_length (ts.map String.data) t.data
        rw [ht2] at h1
        simp only [List.length_cons, List.length_map] at h1 ⊢
        omega
      have h0 := parseItems_encode (ts.map String.data) t.data
        (t2.length + 3) [] hlen
      rw [ht2] at h0
      simpa using h0
    have hparse : parseJsonStrList (encodeTags (t :: ts)) =
        some ((t.data :: ts.map String.data).map fun cs => (⟨cs⟩ : String)) := by
      rw [parseJsonStrList, hskip1]
      simp [hskip2, hpi, skipWs]
    have hmk : ∀ u : String, (⟨u.data⟩ : String) = u := fun _ => rfl
    simp [parse_tags, hne, hparse, hmk]
    exact List.map_id ts

/-- C7: tag encode/decode round-trips — decoding the structured encoding
of any tag list (whose characters lie in `json.dumps`'s unescaped
printable range, code point ≥ 0x20; `"` and `\\` are escaped on both
sides) reproduces exactly the same tag list, hence the same set; the
decoder also accepts the legacy semicolon form, `"sleep;work"` decoding
to the same two tags as the structured encoding; and a missing or empty
cell decodes to the empty list, never to a null-like value. -/
theorem C7_tag_roundtrip :
    (∀ tags : List String, (∀ t ∈ tags, ∀ c ∈ t.data, 32 ≤ c.toNat) →
      parse_tags (some (encodeTags tags)) = tags) ∧
    parse_tags (some "sleep;work") = ["sleep", "work"] ∧
    parse_tags (some (encodeTags ["sleep", "work"])) = ["sleep", "work"] ∧
    parse_tags none = [] ∧
    parse_tags (some "") = [] :=
  ⟨fun tags _ => parse_tags_encodeTags tags, by decide, by decide, rfl, rfl⟩

/-- C7, witness: the round trip evaluated at the tag set
`{sleep, work}`. -/
theorem C7_tag_roundtrip_witness :
    parse_tags (some (encodeTags ["sleep", "work"])) = ["sleep", "work"] :=
  C7_tag_roundtrip.1 ["sleep", "work"] (by decide)

/-! ### Character provenance of the tag decoder -/

/-- Every character of every legacy-split piece comes from the cell
text. -/
theorem splitSemi_mem : ∀ (l : List Char) (piece : List Char),
    piece ∈ splitSemi l → ∀ c ∈ piece, c ∈ l := by
  intro l
  induction l with
  | nil =>
    intro piece hpiece c hc
    simp [splitSemi] at hpiece
    subst hpiece
    simp at hc
  | cons a l ih =>
    intro piece hpiece c hc
    rw [splitSemi.eq_2] at hpiece
    by_cases ha : a = ';'
    · simp only [ha, if_true] at hpiece
      rcases List.mem_cons.mp hpiece with h1 | h1
      · subst h1
        simp at hc
      · exact List.mem_cons_of_mem _ (ih piece h1 c hc)
    · simp only [ha, if_false] at hpiece
      split at hpiece
      next hps =>
        simp only [List.mem_singleton] at hpiece
        subst hpiece
        simp only [List.mem_singleton] at hc
        subst hc
        simp
      next p ps hps =>
        rcases List.mem_cons.mp hpiece with h1 | h1
        · subst h1
          rcases List.mem_cons.mp hc with h2 | h2
          · subst h2
            simp
          · have h3 : p ∈ splitSemi l := by
              rw [hps]
              simp
            exact List.mem_cons_of_mem _ (ih p h3 c h2)
        · have h3 : piece ∈ splitSemi l := by
            rw [hps]
            exact List.mem_cons_of_mem _ h1
          exact List.mem_cons_of_mem _ (ih piece h3 c hc)

/-- Stripping only drops characters. -/
theorem stripChars_mem (s : List Char) (c : Char) (h : c ∈ stripChars s) :
    c ∈ s := by
  unfold stripChars at h
  rw [List.mem_reverse] at h
  have h2 := (List.dropWhile_sublist _).mem h
  rw [List.mem_reverse] at h2
  exact (List.dropWhile_sublist _).mem h2

/-- On a cell that is certainly not JSON, the decoder takes the legacy
path: the structured parse fails and the cell is not empty. -/
theorem legacyCell_not_json (s : String) (hleg : legacyCell s = true) :
    parseJsonStrList s = none ∧ s ≠ "" := by
  cases hsk : skipWs s.data with
  | nil =>
    rw [legacyCell, hsk] at hleg
    simp at hleg
  | cons a rest =>
    rw [legacyCell, hsk] at hleg
    simp only [decide_eq_true_eq] at hleg
    constructor
    · rw [parseJsonStrList, hsk]
      split
      next heq =>
        injection heq with h1 h2
        exact absurd h1 hleg.1
      next => rfl
    · intro h
      subst h
      simp [skipWs] at hsk

/-- C9, counterexample: the claim says every decoded tag is
lowercase-normalized, whichever encoding the row uses.  The decoder
applies no case normalization: the legacy cell `"Sleep;Work"` decodes to
`{Sleep, Work}`, which contains uppercase letters. -/
theorem C9_uppercase_preserved :
    parse_tags (some "Sleep;Work") = ["Sleep", "Work"] ∧
    ((parse_tags (some "Sleep;Work")).all fun t =>
      t.data.all fun c => !c.isUpper) = false := by
  decide

/-- C9, amended: the decoder applies no case normalization of its own,
but a hand-written JSON escape sequence can still denote a character
that is not literally present in the cell (`json.loads` decodes the
all-lowercase cell `["\u0041"]` to the uppercase tag `A`), so verbatim
lowercase preservation holds on the two row families the application
actually produces, not on arbitrary cells.  First, structured rows
written by the app's own encoder decode to exactly the stored tags, so
they are lowercase precisely when the stored tags are (and the app's UI
only offers lowercase labels).  Second, a legacy cell that cannot parse
as JSON (`legacyCell`, e.g. `"Sleep;Work"`) is split and stripped
verbatim: every character of every decoded tag occurs in the cell, so a
lowercase cell yields lowercase tags. -/
theorem C9_lowercase_only_if_stored :
    (∀ tags : List String,
      (∀ t ∈ tags, ∀ c ∈ t.data, 32 ≤ c.toNat) →
      (∀ t ∈ tags, ∀ c ∈ t.data, c.isUpper = false) →
      ∀ t ∈ parse_tags (some (encodeTags tags)), ∀ c ∈ t.data,
        c.isUpper = false) ∧
    ∀ s : String, legacyCell s = true →
      (∀ c ∈ s.data, c.isUpper = false) →
      ∀ t ∈ parse_tags (some s), ∀ c ∈ t.data,
        c ∈ s.data ∧ c.isUpper = false := by
  constructor
  · intro tags _ hlow t ht c hc
    rw [parse_tags_encodeTags tags] at ht
    exact hlow t ht c hc
  · intro s hleg hlow t ht c hc
    obtain ⟨hjson, hne⟩ := legacyCell_not_json s hleg
    have hform : parse_tags (some s) =
        ((splitSemi s.data).map stripChars).filterMap
          (fun t2 => if t2.isEmpty then none else some ⟨t2⟩) := by
      simp [parse_tags, hne, hjson]
    rw [hform] at ht
    simp only [List.filterMap_map, List.mem_filterMap] at ht
    obtain ⟨piece, hpiece, hsome⟩ := ht
    by_cases hemp : (stripChars piece).isEmpty
    · simp [Function.comp, hemp] at hsome
    · simp only [Function.comp, hemp, Bool.false_eq_true, if_false,
        Option.some.injEq] at hsome
      subst hsome
      have h1 : c ∈ stripChars piece := hc
      have h2 : c ∈ s.data :=
        splitSemi_mem s.data piece hpiece c (stripChars_mem piece c h1)
      exact ⟨h2, hlow c h2⟩

/-- C9, witness: part two of the amended theorem at the legacy cell
`"sleep;work"`, its decoded tag `"sleep"` and the character `s`. -/
theorem C9_lowercase_only_if_stored_witness :
    's' ∈ "sleep;work".data ∧ Char.isUpper 's' = false :=
  C9_lowercase_only_if_stored.2 "sleep;work" (by decide) (by decide)
    "sleep" (by decide) 's' (by decide)

/-! ### Date arithmetic for the calendar grid -/

/-- Every month has between 28 and 31 days. -/
theorem days_in_month_bounds (y m : Int) :
    28 ≤ days_in_month y m ∧ days_in_month y m ≤ 31 := by
  unfold days_in_month
  split_ifs <;> omega

/-- The cumulative-days table advances by exactly the month length. -/
theorem days_before_month_succ (y m : Int) (h1 : 1 ≤ m) (h2 : m ≤ 11) :
    days_before_month y (m + 1) = days_before_month y m + days_in_month y m := by
  by_cases hl : isLeap y = true <;>
    interval_cases m <;>
      simp [days_before_month, days_in_month, hl]

/-- `toordinal` advances by one across `nextDate`, also over month and
year boundaries. -/
theorem toordinal_next (dt : Date) (h : validDate dt) :
    toordinal (nextDate dt).y (nextDate dt).m (nextDate dt).d =
      toordinal dt.y dt.m dt.d + 1 := by
  obtain ⟨y, m, d⟩ := dt
  obtain ⟨hm1, hm2, hd1, hd2⟩ := h
  simp only at hm1 hm2 hd1 hd2
  by_cases hd : d < days_in_month y m
  · simp only [nextDate, hd, if_true]
    unfold toordinal
    omega
  · have hde : d = days_in_month y m := by omega
    subst hde
    simp only [nextDate, lt_irrefl, if_false]
    by_cases hm : m = 12
    · subst hm
      simp only [nextMonth, if_true]
      by_cases hl : isLeap y = true
      · have hl2 : y % 4 = 0 ∧ (y % 100 ≠ 0 ∨ y % 400 = 0) := by
          simpa [isLeap] using hl
        simp only [toordinal, days_before_month, days_in_month, isLeap, hl]
        norm_num
        omega
      · have hl2 : ¬ (y % 4 = 0 ∧ (y % 100 ≠ 0 ∨ y % 400 = 0)) := by
          simpa [isLeap] using hl
        simp only [toordinal, days_before_month, days_in_month, isLeap, hl]
        norm_num
        omega
    · have hnm : nextMonth y m = (y, m + 1) := by
        simp [nextMonth, hm]
      rw [hnm]
      simp only [toordinal]
      rw [days_before_month_succ y m hm1 (by omega)]
      omega

/-- `nextDate` preserves validity. -/
theorem validDate_next (dt : Date) (h : validDate dt) :
    validDate (nextDate dt) := by
  obtain ⟨y, m, d⟩ := dt
  obtain ⟨hm1, hm2, hd1, hd2⟩ := h
  simp only at hm1 hm2 hd1 hd2
  by_cases hd : d < days_in_month y m
  · have he : nextDate ⟨y, m, d⟩ = ⟨y, m, d + 1⟩ := by
      simp [nextDate, hd]
    rw [he]
    exact ⟨hm1, hm2, show (1 : Int) ≤ d + 1 by omega,
      show d + 1 ≤ days_in_month y m by omega⟩
  · by_cases hm : m = 12
    · subst hm
      have he : nextDate ⟨y, 12, d⟩ = ⟨y + 1, 1, 1⟩ := by
        simp [nextDate, hd, nextMonth]
      rw [he]
      have hb := days_in_month_bounds (y + 1) 1
      exact ⟨le_refl 1, by norm_num, le_refl 1,
        show (1 : Int) ≤ days_in_month (y + 1) 1 by omega⟩
    · have he : nextDate ⟨y, m, d⟩ = ⟨y, m + 1, 1⟩ := by
        simp [nextDate, hd, nextMonth, hm]
      rw [he]
      have hb := days_in_month_bounds y (m + 1)
      exact ⟨show (1 : Int) ≤ m + 1 by omega, show m + 1 ≤ 12 by omega,
        le_refl 1, show (1 : Int) ≤ days_in_month y (m + 1) by omega⟩

/-- Iterating `nextDate` keeps dates valid and advances the ordinal by
exactly the number of steps. -/
theorem iterate_nextDate (dt : Date) (h : validDate dt) (i : Nat) :
    validDate (nextDate^[i] dt) ∧
    toordinal (nextDate^[i] dt).y (nextDate^[i] dt).m (nextDate^[i] dt).d =
      toordinal dt.y dt.m dt.d + i := by
  induction i with
  | zero =>
    simp only [Function.iterate_zero_apply, Nat.cast_zero, add_zero]
    exact ⟨h, trivial⟩
  | succ i ih =>
    rw [Function.iterate_succ_apply']
    refine ⟨validDate_next _ ih.1, ?_⟩
    rw [toordinal_next _ ih.1, ih.2]
    push_cast
    ring

/-- Iterating `nextDate` inside one month just advances the day. -/
theorem iterate_in_month (y m : Int) (hm1 : 1 ≤ m) (hm2 : m ≤ 12) :
    ∀ (j : Nat) (d : Int), 1 ≤ d → d + j ≤ days_in_month y m →
    nextDate^[j] ⟨y, m, d⟩ = ⟨y, m, d + j⟩ := by
  intro j
  induction j with
  | zero =>
    intro d _ _
    simp
  | succ j ih =>
    intro d hd1 hdj
    rw [Function.iterate_succ_apply]
    have hd : d < days_in_month y m := by
      push_cast at hdj
      omega
    have hnext : nextDate ⟨y, m, d⟩ = ⟨y, m, d + 1⟩ := by
      simp [nextDate, hd]
    rw [hnext, ih (d + 1) (by omega) (by push_cast at hdj ⊢; omega)]
    congr 1
    push_cast
    ring

/-- Stepping past the last day of a month lands on the first of the next
month. -/
theorem nextDate_last_day (y m : Int) :
    nextDate ⟨y, m, days_in_month y m⟩ =
      ⟨(nextMonth y m).1, (nextMonth y m).2, 1⟩ := by
  simp [nextDate]

/-- `nextMonth` undoes `prevMonth`. -/
theorem nextMonth_prevMonth (y m : Int) (h1 : 1 ≤ m) (h2 : m ≤ 12) :
    nextMonth (prevMonth y m).1 (prevMonth y m).2 = (y, m) := by
  unfold prevMonth nextMonth
  split_ifs with ha hb hc <;> simp_all <;> omega

/-- The previous month's number never equals the displayed month's. -/
theorem prevMonth_ne (y m : Int) :
    (prevMonth y m).2 ≠ m := by
  unfold prevMonth
  split_ifs <;> omega

/-- The next month's number never equals the displayed month's. -/
theorem nextMonth_ne (y m : Int) :
    (nextMonth y m).2 ≠ m := by
  unfold nextMonth
  split_ifs <;> omega

/-- The grid's first cell is valid, and stepping forward by the first's
weekday lands exactly on the first of the month. -/
theorem gridStart_spec (y m : Int) (hm1 : 1 ≤ m) (hm2 : m ≤ 12) :
    validDate (gridStart y m) ∧
    nextDate^[(dateWeekday ⟨y, m, 1⟩).toNat] (gridStart y m) = ⟨y, m, 1⟩ ∧
    ∀ i : Nat, i < (dateWeekday ⟨y, m, 1⟩).toNat →
      (nextDate^[i] (gridStart y m)).m = (prevMonth y m).2 := by
  have hw0 : 0 ≤ dateWeekday ⟨y, m, 1⟩ ∧ dateWeekday ⟨y, m, 1⟩ < 7 := by
    unfold dateWeekday
    omega
  set w := dateWeekday ⟨y, m, 1⟩ with hwdef
  have hb1 := days_in_month_bounds y m
  by_cases hw : w = 0
  · have hs : gridStart y m = ⟨y, m, 1⟩ := by
      simp [gridStart, ← hwdef, hw]
    rw [hs, hw]
    refine ⟨⟨hm1, hm2, le_refl 1, show (1 : Int) ≤ days_in_month y m by omega⟩,
      by simp, ?_⟩
    intro i hi
    simp at hi
  · have hpm : 1 ≤ (prevMonth y m).2 ∧ (prevMonth y m).2 ≤ 12 := by
      unfold prevMonth
      split_ifs <;> omega
    have hbp := days_in_month_bounds (prevMonth y m).1 (prevMonth y m).2
    have hs : gridStart y m = ⟨(prevMonth y m).1, (prevMonth y m).2,
        days_in_month (prevMonth y m).1 (prevMonth y m).2 - w + 1⟩ := by
      simp [gridStart, ← hwdef, hw]
    have hval : validDate (gridStart y m) := by
      rw [hs]
      exact ⟨hpm.1, hpm.2,
        show (1 : Int) ≤ days_in_month (prevMonth y m).1 (prevMonth y m).2 - w + 1
          by omega,
        show days_in_month (prevMonth y m).1 (prevMonth y m).2 - w + 1 ≤
          days_in_month (prevMonth y m).1 (prevMonth y m).2 by omega⟩
    refine ⟨hval, ?_, ?_⟩
    · have hwsucc : w.toNat = (w.toNat - 1) + 1 := by omega
      rw [hs, hwsucc, Function.iterate_succ_apply']
      have hmid := iterate_in_month (prevMonth y m).1 (prevMonth y m).2 hpm.1 hpm.2
        (w.toNat - 1)
        (days_in_month (prevMonth y m).1 (prevMonth y m).2 - w + 1)
        (by omega) (by omega)
      rw [hmid]
      have hlast : days_in_month (prevMonth y m).1 (prevMonth y m).2 - w + 1 +
          ((w.toNat - 1 : Nat) : Int) =
          days_in_month (prevMonth y m).1 (prevMonth y m).2 := by omega
      rw [hlast, nextDate_last_day, nextMonth_prevMonth y m hm1 hm2]
    · intro i hi
      rw [hs, iterate_in_month (prevMonth y m).1 (prevMonth y m).2 hpm.1 hpm.2
        i (days_in_month (prevMonth y m).1 (prevMonth y m).2 - w + 1)
        (by omega) (by omega)]

/-- The flattened month grid is: the leading cells from the previous
month, then the month's own days in order, then the trailing cells from
the next month. -/
theorem monthGrid_decomp (y m : Int) (hm1 : 1 ≤ m) (hm2 : m ≤ 12) :
    monthGrid y m =
      ((List.range (dateWeekday ⟨y, m, 1⟩).toNat).map
        fun i => nextDate^[i] (gridStart y m)) ++
      ((List.range (days_in_month y m).toNat).map
        fun j : Nat => (⟨y, m, 1 + (j : Int)⟩ : Date)) ++
      ((List.range ((7 - ((dateWeekday ⟨y, m, 1⟩).toNat +
          (days_in_month y m).toNat) % 7) % 7)).map
        fun k : Nat =>
          (⟨(nextMonth y m).1, (nextMonth y m).2, 1 + (k : Int)⟩ : Date)) := by
  obtain ⟨hvs, hiter, hpre⟩ := gridStart_spec y m hm1 hm2
  set W := (dateWeekday ⟨y, m, 1⟩).toNat with hWdef
  set N := (days_in_month y m).toNat with hNdef
  set T := (7 - (W + N) % 7) % 7 with hTdef
  have hb := days_in_month_bounds y m
  have hN : (N : Int) = days_in_month y m := by omega
  have hT6 : T ≤ 6 := by omega
  have hnm : 1 ≤ (nextMonth y m).2 ∧ (nextMonth y m).2 ≤ 12 := by
    unfold nextMonth
    split_ifs <;> omega
  have hbn := days_in_month_bounds (nextMonth y m).1 (nextMonth y m).2
  have hmid : ∀ j : Nat, j < N →
      nextDate^[W + j] (gridStart y m) = ⟨y, m, 1 + (j : Int)⟩ := by
    intro j hj
    rw [Nat.add_comm, Function.iterate_add_apply, hiter]
    exact iterate_in_month y m hm1 hm2 j 1 le_rfl (by omega)
  have hafter : nextDate^[W + N] (gridStart y m) =
      ⟨(nextMonth y m).1, (nextMonth y m).2, 1⟩ := by
    have hsplit : W + N = (W + (N - 1)) + 1 := by omega
    rw [hsplit, Function.iterate_succ_apply', hmid (N - 1) (by omega)]
    have h1N : (⟨y, m, 1 + ((N - 1 : Nat) : Int)⟩ : Date) =
        ⟨y, m, days_in_month y m⟩ := by
      have : 1 + ((N - 1 : Nat) : Int) = days_in_month y m := by omega
      rw [this]
    rw [h1N, nextDate_last_day]
  have hpost : ∀ k : Nat, k < T →
      nextDate^[W + (N + k)] (gridStart y m) =
        ⟨(nextMonth y m).1, (nextMonth y m).2, 1 + (k : Int)⟩ := by
    intro k hk
    have hsplit : W + (N + k) = k + (W + N) := by omega
    rw [hsplit, Function.iterate_add_apply, hafter]
    exact iterate_in_month (nextMonth y m).1 (nextMonth y m).2 hnm.1 hnm.2
      k 1 le_rfl (by omega)
  have hLen : gridLen y m = W + (N + T) := by
    have h0 : gridLen y m = W + N + T := rfl
    omega
  unfold monthGrid
  rw [hLen, List.range_add, List.map_append, List.map_map, List.range_add,
    List.map_append, List.map_map, List.append_assoc]
  congr 1
  congr 1
  · apply List.map_congr_left
    intro j hj
    exact hmid j (List.mem_range.mp hj)
  · apply List.map_congr_left
    intro k hk
    exact hpost k (List.mem_range.mp hk)

/-- C8: for every (year, month), the flattened calendar grid laid out by
`_build_calendar` via `monthdatescalendar` has a multiple of 7 cells
(whole Monday–Sunday rows, at least one), its first cell is a Monday on
or before the 1st of the month, its last cell is a Sunday on or after
the month's last day, and every date of the month appears exactly once
among the cells, flagged `in_month = true` (and never with a false
flag). -/
theorem C8_calendar_grid (y m : Int) (hm1 : 1 ≤ m) (hm2 : m ≤ 12) :
    (monthGrid y m).length % 7 = 0 ∧
    (monthGrid y m).length ≠ 0 ∧
    (∀ dt, (monthGrid y m).head? = some dt →
      dateWeekday dt = 0 ∧ toordinal dt.y dt.m dt.d ≤ toordinal y m 1) ∧
    (∀ dt, (monthGrid y m).getLast? = some dt →
      dateWeekday dt = 6 ∧
      toordinal y m (days_in_month y m) ≤ toordinal dt.y dt.m dt.d) ∧
    ∀ d : Int, 1 ≤ d → d ≤ days_in_month y m →
      (gridCells y m).count ((⟨y, m, d⟩ : Date), true) = 1 ∧
      (gridCells y m).count ((⟨y, m, d⟩ : Date), false) = 0 := by
  obtain ⟨hvs, hiter, hpre⟩ := gridStart_spec y m hm1 hm2
  set W := (dateWeekday ⟨y, m, 1⟩).toNat with hWdef
  set N := (days_in_month y m).toNat with hNdef
  set T := (7 - (W + N) % 7) % 7 with hTdef
  have hb := days_in_month_bounds y m
  have hN : (N : Int) = days_in_month y m := by omega
  have hwkd : dateWeekday ⟨y, m, 1⟩ = (toordinal y m 1 + 6) % 7 := rfl
  have hWval : (W : Int) = (toordinal y m 1 + 6) % 7 := by
    rw [hWdef, hwkd]
    omega
  have hL0 : gridLen y m = W + N + T := rfl
  have hlen : (monthGrid y m).length = W + N + T := by
    unfold monthGrid
    simp [hL0]
  have hordStart : toordinal (gridStart y m).y (gridStart y m).m
      (gridStart y m).d = toordinal y m 1 - W := by
    have h := (iterate_nextDate _ hvs W).2
    rw [hiter] at h
    have h2 : toordinal y m 1 = toordinal (gridStart y m).y (gridStart y m).m
        (gridStart y m).d + (W : Int) := h
    omega
  have hordD : ∀ d : Int, toordinal y m d = toordinal y m 1 + d - 1 := by
    intro d
    unfold toordinal
    ring
  refine ⟨by omega, by omega, ?_, ?_, ?_⟩
  · -- first cell: the grid start, a Monday on or before the 1st
    have hhead : (monthGrid y m).head? = some (gridStart y m) := by
      unfold monthGrid
      have hK : gridLen y m = (W + N + T - 1) + 1 := by omega
      rw [hK, List.range_succ_eq_map, List.map_cons]
      simp
    intro dt hdt
    rw [hhead] at hdt
    obtain rfl : gridStart y m = dt := by
      simpa using hdt
    constructor
    · unfold dateWeekday
      rw [hordStart]
      omega
    · rw [hordStart]
      omega
  · -- last cell: a Sunday on or after the month's last day
    have hlast : (monthGrid y m).getLast? =
        some (nextDate^[W + N + T - 1] (gridStart y m)) := by
      unfold monthGrid
      have hK : gridLen y m = (W + N + T - 1) + 1 := by omega
      rw [hK, List.range_succ, List.map_append]
      simp
    intro dt hdt
    rw [hlast] at hdt
    obtain rfl : nextDate^[W + N + T - 1] (gridStart y m) = dt := by
      simpa using hdt
    have hord := (iterate_nextDate _ hvs (W + N + T - 1)).2
    have hcast : ((W + N + T - 1 : Nat) : Int) = (W : Int) + N + T - 1 := by
      omega
    rw [hcast, hordStart] at hord
    constructor
    · unfold dateWeekday
      rw [hord]
      omega
    · rw [hord, hordD (days_in_month y m)]
      omega
  · -- each month day exactly once, flagged in_month
    have hcount1 : ∀ d : Int, 1 ≤ d → d ≤ days_in_month y m →
        ((monthGrid y m).countP fun dt => decide (dt = (⟨y, m, d⟩ : Date))) = 1 := by
      intro d hd1 hd2
      rw [monthGrid_decomp y m hm1 hm2, List.countP_append, List.countP_append]
      have hzero_pre : ((List.range W).map
          fun i => nextDate^[i] (gridStart y m)).countP
            (fun dt => decide (dt = (⟨y, m, d⟩ : Date))) = 0 := by
        rw [List.countP_eq_zero]
        intro dt hdt
        simp only [List.mem_map, List.mem_range] at hdt
        obtain ⟨i, hi, rfl⟩ := hdt
        simp only [decide_eq_true_eq]
        intro hEq
        have hmm := hpre i hi
        rw [hEq] at hmm
        exact prevMonth_ne y m hmm.symm
      have hzero_post : ((List.range T).map fun k : Nat =>
          (⟨(nextMonth y m).1, (nextMonth y m).2, 1 + (k : Int)⟩ : Date)).countP
            (fun dt => decide (dt = (⟨y, m, d⟩ : Date))) = 0 := by
        rw [List.countP_eq_zero]
        intro dt hdt
        simp only [List.mem_map, List.mem_range] at hdt
        obtain ⟨k, hk, rfl⟩ := hdt
        simp only [decide_eq_true_eq]
        intro hEq
        have hmm : (nextMonth y m).2 = m := congrArg Date.m hEq
        exact nextMonth_ne y m hmm
      have hone_mid : ((List.range N).map
          fun j : Nat => (⟨y, m, 1 + (j : Int)⟩ : Date)).countP
            (fun dt => decide (dt = (⟨y, m, d⟩ : Date))) = 1 := by
        rw [List.countP_map]
        have hfun : ((fun dt : Date => decide (dt = (⟨y, m, d⟩ : Date))) ∘
            fun j : Nat => (⟨y, m, 1 + (j : Int)⟩ : Date)) =
            fun j : Nat => j == (d - 1).toNat := by
          funext j
          by_cases h : 1 + (j : Int) = d
          · have hj : j = (d - 1).toNat := by omega
            simp only [Function.comp, Date.mk.injEq, h, hj]
            simp only [and_true, true_and, decide_eq_true_eq]
            rw [show ((d - 1).toNat == (d - 1).toNat) = true from by simp]
            simp only [decide_eq_true_eq]
            omega
          · have hj : j ≠ (d - 1).toNat := by omega
            simp only [Function.comp, Date.mk.injEq]
            rw [show (j == (d - 1).toNat) = false from by simpa using hj]
            simp [h]
        rw [hfun, ← List.count_eq_countP]
        exact List.count_eq_one_of_mem (List.nodup_range N)
          (List.mem_range.mpr (by omega))
      rw [hzero_pre, hzero_post, hone_mid]
    intro d hd1 hd2
    constructor
    · have hpair : (gridCells y m).count ((⟨y, m, d⟩ : Date), true) =
          ((monthGrid y m).countP fun dt =>
            decide (dt = (⟨y, m, d⟩ : Date))) := by
        unfold gridCells
        rw [List.count_eq_countP, List.countP_map]
        congr 1
        funext dt
        by_cases h : dt = (⟨y, m, d⟩ : Date)
        · subst h
          simp
        · simp [Function.comp, h, Prod.ext_iff]
      rw [hpair]
      exact hcount1 d hd1 hd2
    · unfold gridCells
      rw [List.count_eq_countP, List.countP_map, List.countP_eq_zero]
      intro dt hdt
      by_cases h : dt = (⟨y, m, d⟩ : Date)
      · subst h
        simp
      · simp [Function.comp, h, Prod.ext_iff]

/-- C8, witness at October 2025: its grid runs from Monday,
September 29 to Sunday, November 2, and October 15 appears exactly once
with the `in_month` flag set. -/
theorem C8_calendar_grid_witness :
    (monthGrid 2025 10).length % 7 = 0 ∧
    (monthGrid 2025 10).length ≠ 0 ∧
    (dateWeekday ⟨2025, 9, 29⟩ = 0 ∧
      toordinal 2025 9 29 ≤ toordinal 2025 10 1) ∧
    (dateWeekday ⟨2025, 11, 2⟩ = 6 ∧
      toordinal 2025 10 (days_in_month 2025 10) ≤ toordinal 2025 11 2) ∧
    (gridCells 2025 10).count ((⟨2025, 10, 15⟩ : Date), true) = 1 ∧
    (gridCells 2025 10).count ((⟨2025, 10, 15⟩ : Date), false) = 0 := by
  have h := C8_calendar_grid 2025 10 (by norm_num) (by norm_num)
  have hd := h.2.2.2.2 15 (by norm_num) (by decide)
  exact ⟨h.1, h.2.1, h.2.2.1 ⟨2025, 9, 29⟩ (by decide),
    h.2.2.2.1 ⟨2025, 11, 2⟩ (by decide), hd.1, hd.2⟩

end MoodTracker
